import Mathlib

/-!
Verification of the two extraction routines of the email-parser worker
(`src/index.ts`): `parseTransactionDetails`, `parseForwardedMail`, the
`clean` helper and `escapeMarkdown`.  The JavaScript regular expressions
are embedded as a small backtracking matcher (ordered alternation, greedy
and lazy character-class repetition) with exactly the backtracking order
of the JS engine, and the `String.prototype.replace` calls as direct
scanning functions.  All definitions are computable and evaluate on
concrete inputs.
-/

set_option maxRecDepth 10000

/-- The JS `\s` class (which is also the set trimmed by
`String.prototype.trim`): WhiteSpace ∪ LineTerminator. -/
def isWs (c : Char) : Bool :=
  c = ' ' || c = '\t' || c = '\n' || c = '\r' || c.toNat = 11 || c.toNat = 12 ||
  c.toNat = 0xa0 || c.toNat = 0x1680 || (0x2000 ≤ c.toNat && c.toNat ≤ 0x200a) ||
  c.toNat = 0x2028 || c.toNat = 0x2029 || c.toNat = 0x202f || c.toNat = 0x205f ||
  c.toNat = 0x3000 || c.toNat = 0xfeff

/-- The JS `.` class (without the `s` flag): everything but a line
terminator. -/
def isDot (c : Char) : Bool :=
  !(c = '\n' || c = '\r' || c.toNat = 0x2028 || c.toNat = 0x2029)

/-- Local-part class of the e-mail regex: `[a-zA-Z0-9._%+-]`. -/
def localCC (c : Char) : Bool :=
  c.isAlphanum || c = '.' || c = '_' || c = '%' || c = '+' || c = '-'

/-- Domain class of the e-mail regex: `[a-zA-Z0-9.-]`. -/
def domCC (c : Char) : Bool :=
  c.isAlphanum || c = '.' || c = '-'

/-- ASCII lower-casing, used to model the `i` regex flag on the ASCII
labels occurring in the source patterns. -/
def lowerA (c : Char) : Char :=
  if 'A' ≤ c && c ≤ 'Z' then Char.ofNat (c.toNat + 32) else c

/-- Char comparison, case-insensitive when `ci` is set. -/
def charEq (ci : Bool) (p c : Char) : Bool :=
  if ci then lowerA p = lowerA c else p = c

/-- `pfx w l`: `w` is literally a prefix of `l`. -/
def pfx : List Char → List Char → Bool
  | [], _ => true
  | _ :: _, [] => false
  | a :: w, b :: l => a = b && pfx w l

/-! ## The `replace` calls of the source, as scanning functions -/

/-- After a `<`, drop everything up to and including the first `>`
(the rest of a `/<[^>]*>/` match); `none` when no `>` remains. -/
def dropThroughGt : List Char → Option (List Char)
  | [] => none
  | c :: rest => if c = '>' then some rest else dropThroughGt rest

/-- `text.replace(/<[^>]*>/g, repl)`, fuel-based so that the kernel can
evaluate it (the fuel never runs out when it starts at the length): each
maximal `<`…first-`>` span is replaced by `repl`; a `<` with no later `>`
starts no match, and then no later position can start one either. -/
def replTagsF (repl : List Char) : Nat → List Char → List Char
  | _, [] => []
  | 0, l => l
  | n + 1, c :: rest =>
    if c = '<' then
      match dropThroughGt rest with
      | some rest' => repl ++ replTagsF repl n rest'
      | none => c :: rest
    else c :: replTagsF repl n rest

def replTags (repl : List Char) (l : List Char) : List Char :=
  replTagsF repl l.length l

/-- The literal `&nbsp;`. -/
def nbspPat : List Char := ['&', 'n', 'b', 's', 'p', ';']

/-- `text.replace(/&nbsp;/g, ' ')`: leftmost, non-overlapping
(fuel-based, fuel = length). -/
def replNbspF : Nat → List Char → List Char
  | _, [] => []
  | 0, l => l
  | n + 1, c :: rest =>
    if pfx nbspPat (c :: rest) then ' ' :: replNbspF n ((c :: rest).drop 6)
    else c :: replNbspF n rest

def replNbsp (l : List Char) : List Char := replNbspF l.length l

/-- `from.replace(/&lt;/g, '<')`. -/
def replLt : List Char → List Char
  | '&' :: 'l' :: 't' :: ';' :: rest => '<' :: replLt rest
  | c :: rest => c :: replLt rest
  | [] => []

/-- `from.replace(/&gt;/g, '>')`. -/
def replGt : List Char → List Char
  | '&' :: 'g' :: 't' :: ';' :: rest => '>' :: replGt rest
  | c :: rest => c :: replGt rest
  | [] => []

/-- `from.replace(/&amp;/g, '&')`. -/
def replAmp : List Char → List Char
  | '&' :: 'a' :: 'm' :: 'p' :: ';' :: rest => '&' :: replAmp rest
  | c :: rest => c :: replAmp rest
  | [] => []

/-- `from.replace(/\s+/g, ' ')`: each maximal whitespace run becomes one
space.  `seenWs` records that the previous character was part of a run
already rewritten. -/
def collapseWsAux (seenWs : Bool) : List Char → List Char
  | [] => []
  | c :: rest =>
    if isWs c then
      (if seenWs then [] else [' ']) ++ collapseWsAux true rest
    else c :: collapseWsAux false rest

def collapseWs (l : List Char) : List Char := collapseWsAux false l

/-- `String.prototype.trim` from the left. -/
def trimL (l : List Char) : List Char := l.dropWhile isWs

/-- `String.prototype.trim` from the right. -/
def trimR (l : List Char) : List Char := (l.reverse.dropWhile isWs).reverse

/-- `text.trim()` of JS. -/
def jsTrim (l : List Char) : List Char := trimR (trimL l)

/-- The rest of a `/<br\s*\/?>/i` match after the `<br`: greedy `\s*`,
optional `/`, then `>`; no backtracking can help since neither `/` nor
`>` is whitespace. -/
def brEnd (l : List Char) : Option (List Char) :=
  match l.dropWhile isWs with
  | '/' :: '>' :: r => some r
  | '>' :: r => some r
  | _ => none

/-- After a `<`: try to finish a `<br\s*\/?>` match (case-insensitive on
the `br`). -/
def tryBr (l : List Char) : Option (List Char) :=
  match l with
  | b :: r :: rest =>
    if charEq true 'b' b && charEq true 'r' r then brEnd rest else none
  | _ => none

/-- `content.replace(/<br\s*\/?>/gi, '\n')` (fuel-based, fuel = length). -/
def normalizeBrF : Nat → List Char → List Char
  | _, [] => []
  | 0, l => l
  | n + 1, c :: rest =>
    if c = '<' then
      match tryBr rest with
      | some rest' => '\n' :: normalizeBrF n rest'
      | none => c :: normalizeBrF n rest
    else c :: normalizeBrF n rest

def normalizeBr (l : List Char) : List Char := normalizeBrF l.length l

/-! ## A small backtracking matcher for the source's regexes

Every quantifier in the source's patterns ranges over a single character
class, so the matcher needs ordered alternation, literals, greedy / lazy
class repetition, an optional group, one capturing group and `$`.  `runRE`
returns every way to match a prefix of the input, in exactly the JS
backtracking order (first element = the match the JS engine commits to). -/

inductive RE : Type where
  | lit : List Char → RE
  | seqP : RE → RE → RE
  | altP : RE → RE → RE
  | optP : RE → RE
  | starG : (Char → Bool) → RE
  | starL : (Char → Bool) → RE
  | repEx : (Char → Bool) → Nat → RE
  | repAtLeast : (Char → Bool) → Nat → RE
  | group : RE → RE
  | eos : RE

/-- Match a literal, optionally case-insensitively; returns the rest. -/
def litMatch (ci : Bool) : List Char → List Char → Option (List Char)
  | [], l => some l
  | _ :: _, [] => none
  | p :: ps, c :: cs => if charEq ci p c then litMatch ci ps cs else none

/-- Exactly `n` characters of class `cc`; returns the rest. -/
def exactN (cc : Char → Bool) : Nat → List Char → Option (List Char)
  | 0, l => some l
  | _ + 1, [] => none
  | n + 1, c :: r => if cc c then exactN cc n r else none

/-- The candidate rests of a greedy `cc*`: longest first. -/
def greedySplits (cc : Char → Bool) (l : List Char) : List (List Char) :=
  let n := (l.takeWhile cc).length
  (List.range (n + 1)).map (fun i => l.drop (n - i))

/-- The candidate rests of a lazy `cc*?`: shortest first. -/
def lazySplits (cc : Char → Bool) (l : List Char) : List (List Char) :=
  let n := (l.takeWhile cc).length
  (List.range (n + 1)).map (fun i => l.drop i)

/-- The candidate rests of a greedy `cc{n,}`: longest first. -/
def atLeastSplits (cc : Char → Bool) (n : Nat) (l : List Char) : List (List Char) :=
  let m := (l.takeWhile cc).length
  if m < n then []
  else (List.range (m - n + 1)).map (fun i => l.drop (m - i))

/-- First-set-wins combination of the capture slots of two sequenced
parts (the source regexes have at most one group). -/
def capJoin (a b : Option (List Char)) : Option (List Char) :=
  match a with
  | some x => some x
  | none => b

/-- All matches of `re` against a prefix of `l`, as (rest, capture) pairs
in JS backtracking order. -/
def runRE (ci : Bool) : RE → List Char → List (List Char × Option (List Char))
  | .lit w, l =>
    match litMatch ci w l with
    | some r => [(r, none)]
    | none => []
  | .seqP p q, l =>
    (runRE ci p l).flatMap fun pr =>
      (runRE ci q pr.1).map fun qr => (qr.1, capJoin pr.2 qr.2)
  | .altP p q, l => runRE ci p l ++ runRE ci q l
  | .optP p, l => runRE ci p l ++ [(l, none)]
  | .starG cc, l => (greedySplits cc l).map fun r => (r, none)
  | .starL cc, l => (lazySplits cc l).map fun r => (r, none)
  | .repEx cc n, l =>
    match exactN cc n l with
    | some r => [(r, none)]
    | none => []
  | .repAtLeast cc n, l => (atLeastSplits cc n l).map fun r => (r, none)
  | .group p, l =>
    (runRE ci p l).map fun pr => (pr.1, some (l.take (l.length - pr.1.length)))
  | .eos, l => if l.isEmpty then [(l, none)] else []

/-- `str.match(re)` without the `g` flag: try every start position from
the left, commit to the first success; result is the group-1 capture slot
(`none` = the regex matched nowhere, like a `null` match object). -/
def reFindCapture (ci : Bool) (re : RE) : List Char → Option (Option (List Char))
  | [] =>
    match (runRE ci re []).head? with
    | some pr => some pr.2
    | none => none
  | c :: rest =>
    match (runRE ci re (c :: rest)).head? with
    | some pr => some pr.2
    | none => reFindCapture ci re rest

/-- `m && m[1]`-style access: `some r` iff the regex matched somewhere
and group 1 participated, returning the captured characters. -/
def capOf (ci : Bool) (re : RE) (l : List Char) : Option (List Char) :=
  match reFindCapture ci re l with
  | some (some r) => some r
  | _ => none

/-! ## The six regexes of the source -/

/-- `\s*` (greedy). -/
def wsS : RE := .starG isWs

/-- `/4\s*digit\s*Akhir\s*Kartu\s*:\s*(?:&nbsp;)?\s*(\d{4})/i`. -/
def kartuRE : RE :=
  .seqP (.lit ['4']) (.seqP wsS (.seqP (.lit "digit".toList)
    (.seqP wsS (.seqP (.lit "Akhir".toList) (.seqP wsS
      (.seqP (.lit "Kartu".toList) (.seqP wsS (.seqP (.lit [':'])
        (.seqP wsS (.seqP (.optP (.lit nbspPat))
          (.seqP wsS (.group (.repEx Char.isDigit 4)))))))))))))

/-- The shared tail `\s*:\s*(.*?)(?:<br|<\/p>|&nbsp;|\n)` of the
merchant / date / amount patterns. -/
def bodyTail : RE :=
  .seqP wsS (.seqP (.lit [':']) (.seqP wsS (.seqP (.group (.starL isDot))
    (.altP (.lit "<br".toList) (.altP (.lit "</p>".toList)
      (.altP (.lit nbspPat) (.lit ['\n'])))))))

/-- `/Merchant\/ATM\s*:\s*(.*?)(?:<br|<\/p>|&nbsp;|\n)/i`. -/
def merchantRE : RE := .seqP (.lit "Merchant/ATM".toList) bodyTail

/-- `/Tanggal\s*Transaksi\s*:\s*(.*?)(?:<br|<\/p>|&nbsp;|\n)/i`. -/
def tanggalRE : RE :=
  .seqP (.lit "Tanggal".toList) (.seqP wsS (.seqP (.lit "Transaksi".toList) bodyTail))

/-- `/Nominal\s*:\s*(.*?)(?:<br|<\/p>|&nbsp;|\n)/i`. -/
def nominalRE : RE := .seqP (.lit "Nominal".toList) bodyTail

/-- The shared tail `:\s*(.*?)(?:\r?\n|$)` of the forwarded-header
patterns. -/
def hdrTail : RE :=
  .seqP (.lit [':']) (.seqP wsS (.seqP (.group (.starL isDot))
    (.altP (.seqP (.optP (.lit ['\r'])) (.lit ['\n'])) .eos)))

/-- `/(?:Dari|From):\s*(.*?)(?:\r?\n|$)/i`. -/
def fromRE : RE :=
  .seqP (.altP (.lit "Dari".toList) (.lit "From".toList)) hdrTail

/-- `/(?:Date|Tanggal|Sent):\s*(.*?)(?:\r?\n|$)/i`. -/
def dateRE : RE :=
  .seqP (.altP (.lit "Date".toList) (.altP (.lit "Tanggal".toList)
    (.lit "Sent".toList))) hdrTail

/-- `/Subject:\s*(.*?)(?:\r?\n|$)/i`. -/
def subjectRE : RE := .seqP (.lit "Subject".toList) hdrTail

/-- `/([a-zA-Z0-9._%+-]+@[a-zA-Z0-9.-]+\.[a-zA-Z]{2,})/` (case-sensitive). -/
def emailRE : RE :=
  .group (.seqP (.repAtLeast localCC 1) (.seqP (.lit ['@'])
    (.seqP (.repAtLeast domCC 1) (.seqP (.lit ['.'])
      (.repAtLeast Char.isAlpha 2)))))

/-! ## Data model and the two extraction functions -/

/-- Result record of `parseTransactionDetails`. -/
structure TransactionFields where
  akhirKartu : String
  merchant : String
  tanggalTransaksi : String
  nominal : String
deriving DecidableEq, Repr

/-- Result record of `parseForwardedMail`; all three fields optional. -/
structure ForwardedHeader where
  «from» : Option String
  subject : Option String
  date : Option String
deriving DecidableEq, Repr

/-- The `clean` helper of `parseTransactionDetails`:
`text.replace(/<[^>]*>/g, '').replace(/&nbsp;/g, ' ').trim()`. -/
def cleanL (l : List Char) : List Char := jsTrim (replNbsp (replTags [] l))

/-- `clean` on `String`s. -/
def clean (s : String) : String := ⟨cleanL s.toList⟩

/-- `if (m && m[1]) x = clean(m[1])` — the value a transaction field
receives given the capture result (default kept on no match or on an
empty = falsy capture). -/
def fieldOr (dflt : List Char) (cap : Option (List Char)) : List Char :=
  match cap with
  | some r => if r.isEmpty then dflt else cleanL r
  | none => dflt

/-- `parseTransactionDetails` of `src/index.ts` (lines 56–91). -/
def parseTransactionDetails (html : String) : TransactionFields :=
  if html = "" then ⟨"N/A", "N/A", "N/A", "N/A"⟩
  else
    let l := html.toList
    { akhirKartu := ⟨fieldOr "N/A".toList (capOf true kartuRE l)⟩
      merchant := ⟨fieldOr "N/A".toList (capOf true merchantRE l)⟩
      tanggalTransaksi := ⟨fieldOr "N/A".toList (capOf true tanggalRE l)⟩
      nominal := ⟨fieldOr "N/A".toList (capOf true nominalRE l)⟩ }

/-- The sender branch: prefer the e-mail-shaped substring, else strip
tags to spaces, collapse whitespace, trim, and decode `&lt; &gt; &amp;`
(in that order). -/
def emailOrClean (raw : List Char) : List Char :=
  match capOf false emailRE raw with
  | some e => e
  | none => replAmp (replGt (replLt (jsTrim (collapseWs (replTags [' '] raw)))))

/-- The date / subject post-processing:
`.replace(/<[^>]*>/g, '').trim()`. -/
def dsClean (raw : List Char) : List Char := jsTrim (replTags [] raw)

/-- `if (m && m[1]) field = f(m[1])` — the optional-field value given the
capture result (unset on no match or on an empty = falsy capture). -/
def fwdField (cap : Option (List Char)) (f : List Char → List Char) :
    Option (List Char) :=
  match cap with
  | some r => if r.isEmpty then none else some (f r)
  | none => none

/-- `parseForwardedMail` of `src/index.ts` (lines 93–129). -/
def parseForwardedMail (content : String) : ForwardedHeader :=
  let n := normalizeBr content.toList
  { «from» := (fwdField (capOf true fromRE n) emailOrClean).map String.mk
    subject := (fwdField (capOf true subjectRE n) dsClean).map String.mk
    date := (fwdField (capOf true dateRE n) dsClean).map String.mk }

/-- `escapeMarkdown`'s character set: `/[_*`\[]/`. -/
def isMdSpecial (c : Char) : Bool :=
  c = '_' || c = '*' || c = Char.ofNat 96 || c = '['

/-- The body of `text.replace(/[_*`\[]/g, '\\$&')`. -/
def escMd : List Char → List Char
  | [] => []
  | c :: r => if isMdSpecial c then '\\' :: c :: escMd r else c :: escMd r

/-- `escapeMarkdown` of `src/index.ts` (lines 153–160), including the
`if (!text) return ''` guard. -/
def escapeMarkdown (text : String) : String :=
  if text = "" then "" else ⟨escMd text.toList⟩

/-! ## Boolean invariants used in the idempotence arguments -/

/-- `l` contains no `>`. -/
def noGt (l : List Char) : Bool := l.all (fun c => !(c = '>'))

/-- No `<` in `l` is followed (anywhere later) by a `>`: exactly the
strings on which `/<[^>]*>/` has no match. -/
def noPair : List Char → Bool
  | [] => true
  | c :: r => if c = '<' then noGt r else noPair r

/-- No occurrence of `&nbsp;` in `l`: exactly the strings on which
`/&nbsp;/` has no match. -/
def noPat : List Char → Bool
  | [] => true
  | c :: r => if pfx nbspPat (c :: r) then false else noPat r
/-- The ten decimal digit characters (the `\d` class of the card-suffix
capture, as an enumerable list). -/
def digitChars : List Char := ['0', '1', '2', '3', '4', '5', '6', '7', '8', '9']

/-! ## Helper lemmas -/

theorem pfx_length_le : ∀ w l : List Char, pfx w l = true → w.length ≤ l.length := by
  intro w
  induction w with
  | nil => intro l _; exact Nat.zero_le _
  | cons a w ih =>
    intro l h
    cases l with
    | nil => simp [pfx] at h
    | cons b l =>
      simp only [pfx, Bool.and_eq_true] at h
      simpa using Nat.succ_le_succ (ih l h.2)

theorem pfx_append_right (w x a : List Char) (h : pfx w x = true) :
    pfx w (x ++ a) = true := by
  induction w generalizing x with
  | nil => simp [pfx]
  | cons c w ih =>
    cases x with
    | nil => simp [pfx] at h
    | cons b x =>
      simp only [pfx, Bool.and_eq_true] at h ⊢
      exact ⟨h.1, ih x h.2⟩

theorem dropThroughGt_len : ∀ l r : List Char, dropThroughGt l = some r →
    r.length < l.length := by
  intro l
  induction l with
  | nil => intro r h; simp [dropThroughGt] at h
  | cons c rest ih =>
    intro r h
    by_cases hc : c = '>'
    · simp [dropThroughGt, hc] at h; subst h; simp
    · simp [dropThroughGt, hc] at h
      exact Nat.lt_trans (ih r h) (by simp)

theorem replTagsF_fuel (repl : List Char) :
    ∀ (n m : Nat) (l : List Char), l.length ≤ n → l.length ≤ m →
      replTagsF repl n l = replTagsF repl m l := by
  intro n
  induction n with
  | zero =>
    intro m l hn _
    have : l = [] := List.length_eq_zero.mp (Nat.le_zero.mp hn)
    subst this
    cases m <;> rfl
  | succ n ih =>
    intro m l hn hm
    cases l with
    | nil => cases m <;> rfl
    | cons c rest =>
      cases m with
      | zero => simp at hm
      | succ m =>
        by_cases hc : c = '<'
        · subst hc
          simp only [replTagsF]
          cases hdg : dropThroughGt rest with
          | none => simp
          | some rest' =>
            have hlt := dropThroughGt_len rest rest' hdg
            simp at hn hm
            simp only [if_pos rfl]
            rw [ih m rest' (by omega) (by omega)]
            simp
        · simp only [replTagsF, if_neg hc]
          simp at hn hm
          rw [ih m rest (by omega) (by omega)]

theorem replTags_nil (repl : List Char) : replTags repl [] = [] := rfl

theorem replTags_lt_some (repl rest rest' : List Char)
    (h : dropThroughGt rest = some rest') :
    replTags repl ('<' :: rest) = repl ++ replTags repl rest' := by
  show replTagsF repl (rest.length + 1) ('<' :: rest) = _
  simp only [replTagsF, if_pos rfl, h]
  have hlt := dropThroughGt_len rest rest' h
  rw [replTagsF_fuel repl rest.length rest'.length rest' (by omega) (by omega)]
  rfl

theorem replTags_lt_none (repl rest : List Char)
    (h : dropThroughGt rest = none) :
    replTags repl ('<' :: rest) = '<' :: rest := by
  show replTagsF repl (rest.length + 1) ('<' :: rest) = _
  simp only [replTagsF, if_pos rfl, h]
  simp

theorem replTags_cons (repl : List Char) (c : Char) (rest : List Char)
    (hc : ¬(c = '<')) :
    replTags repl (c :: rest) = c :: replTags repl rest := by
  show replTagsF repl (rest.length + 1) (c :: rest) = _
  simp only [replTagsF, if_neg hc]
  rfl

theorem replNbspF_fuel :
    ∀ (n m : Nat) (l : List Char), l.length ≤ n → l.length ≤ m →
      replNbspF n l = replNbspF m l := by
  intro n
  induction n with
  | zero =>
    intro m l hn _
    have : l = [] := List.length_eq_zero.mp (Nat.le_zero.mp hn)
    subst this
    cases m <;> rfl
  | succ n ih =>
    intro m l hn hm
    cases l with
    | nil => cases m <;> rfl
    | cons c rest =>
      cases m with
      | zero => simp at hm
      | succ m =>
        by_cases hp : pfx nbspPat (c :: rest) = true
        · simp only [replNbspF, hp, if_pos rfl]
          have h6 : 6 ≤ (c :: rest).length := by
            simpa [nbspPat] using pfx_length_le nbspPat (c :: rest) hp
          simp at hn hm h6
          rw [ih m ((c :: rest).drop 6) (by simp; omega) (by simp; omega)]
          simp
        · simp only [replNbspF, if_neg hp]
          simp at hn hm
          rw [ih m rest (by omega) (by omega)]

theorem replNbsp_nil : replNbsp [] = [] := rfl

theorem replNbsp_pat (l : List Char) (h : pfx nbspPat l = true) :
    replNbsp l = ' ' :: replNbsp (l.drop 6) := by
  cases l with
  | nil => simp [pfx, nbspPat] at h
  | cons c rest =>
    show replNbspF (rest.length + 1) (c :: rest) = _
    simp only [replNbspF, h, if_pos rfl]
    have h6 : 6 ≤ (c :: rest).length := by
      simpa [nbspPat] using pfx_length_le nbspPat (c :: rest) h
    simp at h6
    rw [replNbspF_fuel rest.length ((c :: rest).drop 6).length ((c :: rest).drop 6)
      (by simp only [List.length_drop, List.length_cons]; omega) (by simp)]
    simp [replNbsp]

theorem replNbsp_cons (c : Char) (rest : List Char)
    (h : ¬(pfx nbspPat (c :: rest) = true)) :
    replNbsp (c :: rest) = c :: replNbsp rest := by
  show replNbspF (rest.length + 1) (c :: rest) = _
  simp only [replNbspF, if_neg h]
  rfl

theorem noGt_dropThroughGt_none (l : List Char) (h : noGt l = true) :
    dropThroughGt l = none := by
  induction l with
  | nil => simp [dropThroughGt]
  | cons c rest ih =>
    simp only [noGt, List.all_cons, Bool.and_eq_true] at h
    have hc : ¬(c = '>') := by simpa using h.1
    simp [dropThroughGt, hc]
    exact ih h.2

theorem dropThroughGt_none_noGt (l : List Char) (h : dropThroughGt l = none) :
    noGt l = true := by
  induction l with
  | nil => simp [noGt]
  | cons c rest ih =>
    by_cases hc : c = '>'
    · simp [dropThroughGt, hc] at h
    · simp [dropThroughGt, hc] at h
      simp [noGt, hc]
      simpa [noGt] using ih h

theorem noGt_noPair (l : List Char) (h : noGt l = true) : noPair l = true := by
  induction l with
  | nil => simp [noPair]
  | cons c rest ih =>
    simp only [noGt, List.all_cons, Bool.and_eq_true] at h
    by_cases hc : c = '<'
    · simp [noPair, hc]
      simpa [noGt] using h.2
    · simp [noPair, hc]
      exact ih h.2

theorem noPair_replTags (l : List Char) : noPair (replTags [] l) = true := by
  cases l with
  | nil => simp [replTags_nil, noPair]
  | cons c rest =>
    by_cases hc : c = '<'
    · subst hc
      rcases hdg : dropThroughGt rest with _ | rest'
      · rw [replTags_lt_none [] rest hdg]
        simp [noPair]
        simpa [noGt] using dropThroughGt_none_noGt rest hdg
      · rw [replTags_lt_some [] rest rest' hdg]
        simpa using noPair_replTags rest'
    · rw [replTags_cons [] c rest hc]
      simp [noPair, hc]
      exact noPair_replTags rest
termination_by l.length
decreasing_by
  · exact Nat.lt_trans (dropThroughGt_len _ _ hdg) (by simp)
  · simp

theorem replTags_of_noPair (l : List Char) (h : noPair l = true) :
    replTags [] l = l := by
  induction l with
  | nil => simp [replTags_nil]
  | cons c rest ih =>
    by_cases hc : c = '<'
    · subst hc
      have hng : noGt rest = true := by simpa [noPair] using h
      exact replTags_lt_none [] rest (noGt_dropThroughGt_none rest hng)
    · rw [replTags_cons [] c rest hc]
      have := ih (by simpa [noPair, hc] using h)
      simp [this]

theorem pfx_replNbsp_transfer (w : List Char)
    (hw : ∀ c ∈ w, ¬(c = '&') ∧ ¬(c = ' ')) :
    ∀ r : List Char, pfx w (replNbsp r) = true → pfx w r = true := by
  induction w with
  | nil => intro r _; simp [pfx]
  | cons a w ih =>
    intro r h
    have ha := hw a (by simp)
    by_cases hp : pfx nbspPat r = true
    · rw [replNbsp_pat r hp] at h
      simp only [pfx, Bool.and_eq_true] at h
      exact absurd h.1 (by simpa using ha.2)
    · cases r with
      | nil => rw [replNbsp_nil] at h; simp [pfx] at h
      | cons c r' =>
        rw [replNbsp_cons c r' hp] at h
        simp only [pfx, Bool.and_eq_true] at h ⊢
        refine ⟨h.1, ih (fun c hc => hw c (by simp [hc])) r' h.2⟩

theorem noPat_replNbsp_aux :
    ∀ (n : Nat) (l : List Char), l.length ≤ n → noPat (replNbsp l) = true := by
  intro n
  induction n with
  | zero =>
    intro l hl
    have : l = [] := List.length_eq_zero.mp (Nat.le_zero.mp hl)
    subst this
    rw [replNbsp_nil]; simp [noPat]
  | succ n ih =>
    intro l hl
    by_cases hp : pfx nbspPat l = true
    · rw [replNbsp_pat l hp]
      have h6 : 6 ≤ l.length := by simpa [nbspPat] using pfx_length_le nbspPat l hp
      have hrec := ih (l.drop 6) (by simp; omega)
      simp only [noPat]
      have hnp : ¬(pfx nbspPat (' ' :: replNbsp (l.drop 6)) = true) := by
        simp [nbspPat, pfx]
      simp [hnp]
      simpa [noPat] using hrec
    · cases l with
      | nil => rw [replNbsp_nil]; simp [noPat]
      | cons c rest =>
        rw [replNbsp_cons c rest hp]
        by_cases hpp : pfx nbspPat (c :: replNbsp rest) = true
        · exfalso
          apply hp
          have hc : c = '&' := by
            have h1 := hpp
            simp only [nbspPat, pfx, Bool.and_eq_true, decide_eq_true_eq] at h1
            exact h1.1.symm
          have htl : pfx ['n', 'b', 's', 'p', ';'] (replNbsp rest) = true := by
            simpa [nbspPat, pfx, hc] using hpp
          have := pfx_replNbsp_transfer ['n', 'b', 's', 'p', ';'] (by decide) rest htl
          simp [nbspPat, pfx, hc, this]
        · have hrec := ih rest (by simp at hl; omega)
          simp [noPat, hpp]
          simpa [noPat] using hrec

theorem noPat_replNbsp (l : List Char) : noPat (replNbsp l) = true :=
  noPat_replNbsp_aux l.length l (Nat.le_refl _)

theorem replNbsp_of_noPat (l : List Char) (h : noPat l = true) :
    replNbsp l = l := by
  induction l with
  | nil => exact replNbsp_nil
  | cons c rest ih =>
    have hp : ¬(pfx nbspPat (c :: rest) = true) := by
      intro hpp
      simp [noPat, hpp] at h
    rw [replNbsp_cons c rest hp]
    have := ih (by simpa [noPat, hp] using h)
    simp [this]

theorem noPat_append_right (a b : List Char) (h : noPat (a ++ b) = true) :
    noPat b = true := by
  induction a with
  | nil => simpa using h
  | cons c a' ih =>
    apply ih
    simp only [List.cons_append, noPat] at h
    by_cases hp : pfx nbspPat (c :: (a' ++ b)) = true
    · simp [hp] at h
    · simpa [hp] using h

theorem noPat_append_left (a b : List Char) (h : noPat (a ++ b) = true) :
    noPat a = true := by
  induction a with
  | nil => simp [noPat]
  | cons c a' ih =>
    simp only [List.cons_append, noPat] at h
    by_cases hp : pfx nbspPat (c :: (a' ++ b)) = true
    · simp [hp] at h
    · have ha' := ih (by simpa [hp] using h)
      have hp2 : ¬(pfx nbspPat (c :: a') = true) := by
        intro hq
        exact hp (by simpa [List.cons_append] using
          pfx_append_right nbspPat (c :: a') b hq)
      simp [noPat, hp2, ha']

theorem noGt_append_right (a b : List Char) (h : noGt (a ++ b) = true) :
    noGt b = true := by
  simp only [noGt, List.all_append, Bool.and_eq_true] at h
  exact h.2

theorem noGt_append_left (a b : List Char) (h : noGt (a ++ b) = true) :
    noGt a = true := by
  simp only [noGt, List.all_append, Bool.and_eq_true] at h
  exact h.1

theorem noPair_append_right (a b : List Char) (h : noPair (a ++ b) = true) :
    noPair b = true := by
  induction a with
  | nil => simpa using h
  | cons c a' ih =>
    simp only [List.cons_append, noPair] at h
    by_cases hc : c = '<'
    · simp only [hc, if_pos rfl] at h
      exact noGt_noPair b (noGt_append_right a' b h)
    · exact ih (by simpa [hc] using h)

theorem noPair_append_left (a b : List Char) (h : noPair (a ++ b) = true) :
    noPair a = true := by
  induction a with
  | nil => simp [noPair]
  | cons c a' ih =>
    simp only [List.cons_append, noPair] at h
    by_cases hc : c = '<'
    · simp only [hc, if_pos rfl] at h
      simp [noPair, hc]
      simpa [noGt] using noGt_append_left a' b h
    · simp [noPair, hc]
      exact ih (by simpa [hc] using h)

theorem noGt_replNbsp_aux :
    ∀ (n : Nat) (l : List Char), l.length ≤ n → noGt l = true →
      noGt (replNbsp l) = true := by
  intro n
  induction n with
  | zero =>
    intro l hl _
    have : l = [] := List.length_eq_zero.mp (Nat.le_zero.mp hl)
    subst this
    rw [replNbsp_nil]; simp [noGt]
  | succ n ih =>
    intro l hl h
    by_cases hp : pfx nbspPat l = true
    · rw [replNbsp_pat l hp]
      have h6 : 6 ≤ l.length := by simpa [nbspPat] using pfx_length_le nbspPat l hp
      have hd : noGt (l.drop 6) = true := by
        have hsplit : l = l.take 6 ++ l.drop 6 := (List.take_append_drop 6 l).symm
        rw [hsplit] at h
        exact noGt_append_right _ _ h
      have hrec := ih (l.drop 6) (by simp; omega) hd
      simp only [noGt, List.all_cons, Bool.and_eq_true]
      exact ⟨by decide, by simpa [noGt] using hrec⟩
    · cases l with
      | nil => rw [replNbsp_nil]; simp [noGt]
      | cons c rest =>
        rw [replNbsp_cons c rest hp]
        simp only [noGt, List.all_cons, Bool.and_eq_true] at h ⊢
        refine ⟨h.1, ?_⟩
        have hrec := ih rest (by simp at hl; omega) (by simpa [noGt] using h.2)
        simpa [noGt] using hrec

theorem noGt_replNbsp (l : List Char) (h : noGt l = true) :
    noGt (replNbsp l) = true :=
  noGt_replNbsp_aux l.length l (Nat.le_refl _) h

theorem noPair_replNbsp_aux :
    ∀ (n : Nat) (l : List Char), l.length ≤ n → noPair l = true →
      noPair (replNbsp l) = true := by
  intro n
  induction n with
  | zero =>
    intro l hl _
    have : l = [] := List.length_eq_zero.mp (Nat.le_zero.mp hl)
    subst this
    rw [replNbsp_nil]; simp [noPair]
  | succ n ih =>
    intro l hl h
    by_cases hp : pfx nbspPat l = true
    · cases l with
      | nil => simp [pfx, nbspPat] at hp
      | cons c rest =>
        have hc : c = '&' := by
          simp only [nbspPat, pfx, Bool.and_eq_true, decide_eq_true_eq] at hp
          exact hp.1.symm
        rw [replNbsp_pat (c :: rest) hp]
        have hnr : noPair rest = true := by
          have hcne : ¬(c = '<') := by rw [hc]; decide
          simpa [noPair, hcne] using h
        have hdrop : noPair ((c :: rest).drop 6) = true := by
          have h5 : (c :: rest).drop 6 = rest.drop 5 := by simp
          rw [h5]
          have hsplit : rest = rest.take 5 ++ rest.drop 5 :=
            (List.take_append_drop 5 rest).symm
          rw [hsplit] at hnr
          exact noPair_append_right _ _ hnr
        have hrec := ih ((c :: rest).drop 6) (by simp at hl ⊢; omega) hdrop
        simp only [noPair]
        have : ¬((' ' : Char) = '<') := by decide
        simpa [this, noPair] using hrec
    · cases l with
      | nil => rw [replNbsp_nil]; simp [noPair]
      | cons c rest =>
        rw [replNbsp_cons c rest hp]
        by_cases hc : c = '<'
        · have hng : noGt rest = true := by simpa [noPair, hc] using h
          simp [noPair, hc]
          simpa [noGt] using noGt_replNbsp rest hng
        · simp only [noPair, hc, if_neg hc]
          have hrec := ih rest (by simp at hl; omega) (by simpa [noPair, hc] using h)
          simpa [noPair, hc] using hrec

theorem noPair_replNbsp (l : List Char) (h : noPair l = true) :
    noPair (replNbsp l) = true :=
  noPair_replNbsp_aux l.length l (Nat.le_refl _) h

theorem dropWhile_len_le (p : Char → Bool) :
    ∀ l : List Char, (l.dropWhile p).length ≤ l.length := by
  intro l
  induction l with
  | nil => simp
  | cons c rest ih =>
    by_cases hc : p c
    · simp only [List.dropWhile_cons, hc, if_true]
      exact Nat.le_trans ih (by simp)
    · simp [List.dropWhile_cons, hc]

theorem dropWhile_idem (p : Char → Bool) (l : List Char) :
    (l.dropWhile p).dropWhile p = l.dropWhile p := by
  induction l with
  | nil => simp
  | cons c rest ih =>
    by_cases hc : p c
    · simp [List.dropWhile_cons, hc, ih]
    · simp [List.dropWhile_cons, hc]

theorem trimL_trimL (l : List Char) : trimL (trimL l) = trimL l :=
  dropWhile_idem isWs l

theorem trimR_trimR (l : List Char) : trimR (trimR l) = trimR l := by
  unfold trimR
  rw [List.reverse_reverse, dropWhile_idem]

theorem trimL_split (l : List Char) : l.takeWhile isWs ++ trimL l = l :=
  List.takeWhile_append_dropWhile isWs l

theorem trimR_split (l : List Char) :
    trimR l ++ (l.reverse.takeWhile isWs).reverse = l := by
  have h := List.takeWhile_append_dropWhile isWs l.reverse
  have h2 := congrArg List.reverse h
  rw [List.reverse_append] at h2
  simpa [trimR] using h2

theorem dropWhile_head_false (p : Char → Bool) (l : List Char) (c : Char)
    (t : List Char) (h : l.dropWhile p = c :: t) : p c = false := by
  induction l with
  | nil => simp at h
  | cons a rest ih =>
    by_cases ha : p a
    · simp only [List.dropWhile_cons, ha, if_true] at h
      exact ih h
    · simp only [List.dropWhile_cons, ha, if_false] at h
      obtain rfl : a = c := by injection h
      simpa using ha

theorem trimL_of_trimmed (l : List Char) (h : trimL l = l) :
    trimL (trimR l) = trimR l := by
  cases hr : trimR l with
  | nil => simp [trimL]
  | cons d r =>
    have hpre := trimR_split l
    rw [hr] at hpre
    cases l with
    | nil => simp [trimR] at hr
    | cons c t =>
      have hd : d = c := by
        have := hpre
        rw [List.cons_append] at this
        injection this
      subst hd
      have hdws : isWs d = false := by
        have hL : trimL (d :: t) = d :: t := by
          rw [← hpre] at h ⊢
          exact h
        by_cases hws : isWs d
        · exfalso
          have : trimL (d :: t) = t.dropWhile isWs := by
            simp [trimL, List.dropWhile_cons, hws]
          rw [hL] at this
          have hlen := dropWhile_len_le isWs t
          rw [← this] at hlen
          simp at hlen
        · simpa using hws
      simp [trimL, List.dropWhile_cons, hdws]

theorem jsTrim_idem (l : List Char) : jsTrim (jsTrim l) = jsTrim l := by
  unfold jsTrim
  rw [trimL_of_trimmed (trimL l) (trimL_trimL l), trimR_trimR]

theorem noPat_trimL (l : List Char) (h : noPat l = true) :
    noPat (trimL l) = true := by
  have := trimL_split l
  rw [← this] at h
  exact noPat_append_right _ _ h

theorem noPat_trimR (l : List Char) (h : noPat l = true) :
    noPat (trimR l) = true := by
  have := trimR_split l
  rw [← this] at h
  exact noPat_append_left _ _ h

theorem noPat_jsTrim (l : List Char) (h : noPat l = true) :
    noPat (jsTrim l) = true :=
  noPat_trimR _ (noPat_trimL _ h)

theorem noPair_trimL (l : List Char) (h : noPair l = true) :
    noPair (trimL l) = true := by
  have := trimL_split l
  rw [← this] at h
  exact noPair_append_right _ _ h

theorem noPair_trimR (l : List Char) (h : noPair l = true) :
    noPair (trimR l) = true := by
  have := trimR_split l
  rw [← this] at h
  exact noPair_append_left _ _ h

theorem noPair_jsTrim (l : List Char) (h : noPair l = true) :
    noPair (jsTrim l) = true :=
  noPair_trimR _ (noPair_trimL _ h)

theorem cleanL_idem (l : List Char) : cleanL (cleanL l) = cleanL l := by
  have hy : noPair (replTags [] l) = true := noPair_replTags l
  have hz : noPair (replNbsp (replTags [] l)) = true := noPair_replNbsp _ hy
  have hzPat : noPat (replNbsp (replTags [] l)) = true := noPat_replNbsp _
  have ht1 : replTags [] (cleanL l) = cleanL l :=
    replTags_of_noPair _ (noPair_jsTrim _ hz)
  have ht2 : replNbsp (cleanL l) = cleanL l :=
    replNbsp_of_noPat _ (noPat_jsTrim _ hzPat)
  show jsTrim (replNbsp (replTags [] (cleanL l))) = cleanL l
  rw [ht1, ht2]
  exact jsTrim_idem _

theorem fwdField_map_none_iff (cap : Option (List Char)) (f : List Char → List Char) :
    (fwdField cap f).map String.mk = none ↔ (cap = none ∨ cap = some []) := by
  cases cap with
  | none => simp [fwdField]
  | some r =>
    cases r with
    | nil => simp [fwdField]
    | cons c t => simp [fwdField]

theorem fieldOr_none (dflt : List Char) : fieldOr dflt none = dflt := rfl

theorem replTags_id_of_noLt (l : List Char)
    (h : l.all (fun c => !(c = '<')) = true) : replTags [] l = l := by
  induction l with
  | nil => exact replTags_nil []
  | cons c rest ih =>
    simp only [List.all_cons, Bool.and_eq_true] at h
    have hc : ¬(c = '<') := by simpa using h.1
    rw [replTags_cons [] c rest hc]
    simp [ih h.2]

theorem escMd_join (l : List Char) :
    escMd l = (l.map (fun c => if isMdSpecial c then ['\\', c] else [c])).join := by
  induction l with
  | nil => simp [escMd]
  | cons c rest ih =>
    by_cases hc : isMdSpecial c
    · simp [escMd, hc, ih]
    · simp [escMd, hc, ih]

theorem charEq_self (ci : Bool) (c : Char) : charEq ci c c = true := by
  cases ci <;> simp [charEq]

theorem litMatch_self (ci : Bool) :
    ∀ (w rest : List Char), litMatch ci w (w ++ rest) = some rest := by
  intro w
  induction w with
  | nil => intro rest; rfl
  | cons a w ih => intro rest; simp [litMatch, charEq_self, ih]

theorem runRE_seq_lit (ci : Bool) (w : List Char) (q : RE) (rest : List Char) :
    runRE ci (.seqP (.lit w) q) (w ++ rest) = runRE ci q rest := by
  simp [runRE, litMatch_self, capJoin]

theorem runRE_seq_lit_ne (ci : Bool) (p : Char) (ps : List Char) (q : RE)
    (c : Char) (cs : List Char) (h : charEq ci p c = false) :
    runRE ci (.seqP (.lit (p :: ps)) q) (c :: cs) = [] := by
  simp [runRE, litMatch, h]

theorem runRE_seq_ws_skip (ci : Bool) (q : RE) (c : Char) (m : List Char)
    (hc : isWs c = false) :
    runRE ci (.seqP wsS q) (c :: m) = runRE ci q (c :: m) := by
  simp [runRE, wsS, greedySplits, List.takeWhile_cons, hc, capJoin]

theorem runRE_seq_ws_one (ci : Bool) (q : RE) (c : Char) (m : List Char)
    (hc : isWs c = false) :
    runRE ci (.seqP wsS q) (' ' :: c :: m) =
      runRE ci q (c :: m) ++ runRE ci q (' ' :: c :: m) := by
  have hr2 : List.range 2 = [0, 1] := rfl
  have hsp : isWs ' ' = true := by decide
  simp [runRE, wsS, greedySplits, List.takeWhile_cons, hc, hsp, hr2, capJoin]

theorem reFindCapture_skip (ci : Bool) (re : RE) (c : Char) (m : List Char)
    (h : runRE ci re (c :: m) = []) :
    reFindCapture ci re (c :: m) = reFindCapture ci re m := by
  simp [reFindCapture, h]

theorem capOf_skip (ci : Bool) (re : RE) (c : Char) (m : List Char)
    (h : runRE ci re (c :: m) = []) :
    capOf ci re (c :: m) = capOf ci re m := by
  simp [capOf, reFindCapture_skip ci re c m h]

theorem reFindCapture_headq (ci : Bool) (re : RE) (l : List Char)
    (pr : List Char × Option (List Char))
    (h : (runRE ci re l).head? = some pr) :
    reFindCapture ci re l = some pr.2 := by
  cases l with
  | nil => simp [reFindCapture, h]
  | cons c t => simp [reFindCapture, h]

theorem capOf_headq_some (ci : Bool) (re : RE) (l r x : List Char)
    (h : (runRE ci re l).head? = some (r, some x)) :
    capOf ci re l = some x := by
  simp [capOf, reFindCapture_headq ci re l (r, some x) h]

theorem starL_term_nbsp_head (v : List Char) :
    (runRE true (.seqP (.group (.starL isDot))
      (.altP (.lit "<br".toList) (.altP (.lit "</p>".toList)
        (.altP (.lit nbspPat) (.lit ['\n']))))) (nbspPat ++ v)).head? =
      some (v, some []) := by
  have h1 : charEq true '<' '&' = false := by decide
  have h2 : charEq true '\n' '&' = false := by decide
  simp [runRE, lazySplits, List.range_succ_eq_map, nbspPat, litMatch, charEq_self,
    h1, h2, capJoin]

theorem digitChars_facts : ∀ c ∈ digitChars, Char.isDigit c = true ∧ isWs c = false ∧
    ¬(c = '<') ∧ ¬(c = '&') := by decide

theorem noPat_of_noAmp (l : List Char) (h : ∀ c ∈ l, ¬(c = '&')) :
    noPat l = true := by
  induction l with
  | nil => simp [noPat]
  | cons c r ih =>
    have hp : ¬(pfx nbspPat (c :: r) = true) := by
      intro hq
      simp only [nbspPat, pfx, Bool.and_eq_true, decide_eq_true_eq] at hq
      exact h c (by simp) hq.1.symm
    simp [noPat, hp]
    simpa [noPat] using ih (fun c hc => h c (by simp [hc]))

theorem jsTrim_of_noWs (l : List Char) (h : ∀ c ∈ l, isWs c = false) :
    jsTrim l = l := by
  have hL : trimL l = l := by
    cases l with
    | nil => rfl
    | cons c r => simp [trimL, List.dropWhile_cons, h c (by simp)]
  have hR : trimR l = l := by
    cases hrev : l.reverse with
    | nil =>
      have : l = [] := by simpa using congrArg List.reverse hrev
      subst this; rfl
    | cons c r =>
      have hc : c ∈ l := by
        have : c ∈ l.reverse := by simp [hrev]
        simpa using this
      have h2 : (c :: r).reverse = l := by
        have := congrArg List.reverse hrev
        simpa using this.symm
      unfold trimR
      rw [hrev]
      simp only [List.dropWhile_cons, h c hc]
      simpa using h2
  unfold jsTrim
  rw [hL, hR]

theorem cleanL_of_plain (l : List Char)
    (hlt : l.all (fun c => !(c = '<')) = true)
    (hamp : ∀ c ∈ l, ¬(c = '&'))
    (hws : ∀ c ∈ l, isWs c = false) :
    cleanL l = l := by
  unfold cleanL
  rw [replTags_id_of_noLt l hlt, replNbsp_of_noPat l (noPat_of_noAmp l hamp)]
  exact jsTrim_of_noWs l hws

theorem bodyTail_head (v : List Char) :
    (runRE true bodyTail (':' :: (nbspPat ++ v))).head? = some (v, some []) := by
  rw [show bodyTail = RE.seqP wsS (.seqP (.lit [':']) (.seqP wsS
    (.seqP (.group (.starL isDot)) (.altP (.lit "<br".toList)
      (.altP (.lit "</p>".toList) (.altP (.lit nbspPat) (.lit ['\n']))))))) from rfl]
  rw [runRE_seq_ws_skip true _ ':' _ (by decide)]
  rw [show (':' :: (nbspPat ++ v)) = [':'] ++ (nbspPat ++ v) from rfl]
  rw [runRE_seq_lit]
  rw [show (nbspPat ++ v) = '&' :: ('n' :: 'b' :: 's' :: 'p' :: ';' :: v) from rfl]
  rw [runRE_seq_ws_skip true _ '&' _ (by decide)]
  rw [show ('&' :: ('n' :: 'b' :: 's' :: 'p' :: ';' :: v)) = nbspPat ++ v from rfl]
  exact starL_term_nbsp_head v

theorem capOf_merchant_nbsp (v : List Char) :
    capOf true merchantRE ("Merchant/ATM:&nbsp;".toList ++ v) = some [] := by
  apply capOf_headq_some true merchantRE _ v []
  rw [show ("Merchant/ATM:&nbsp;".toList ++ v) =
    "Merchant/ATM".toList ++ (':' :: (nbspPat ++ v)) from rfl]
  rw [show merchantRE = RE.seqP (.lit "Merchant/ATM".toList) bodyTail from rfl]
  rw [runRE_seq_lit]
  exact bodyTail_head v

theorem capOf_nominal_nbsp (v : List Char) :
    capOf true nominalRE ("Nominal:&nbsp;".toList ++ v) = some [] := by
  apply capOf_headq_some true nominalRE _ v []
  rw [show ("Nominal:&nbsp;".toList ++ v) =
    "Nominal".toList ++ (':' :: (nbspPat ++ v)) from rfl]
  rw [show nominalRE = RE.seqP (.lit "Nominal".toList) bodyTail from rfl]
  rw [runRE_seq_lit]
  exact bodyTail_head v

theorem capOf_tanggal_nbsp (v : List Char) :
    capOf true tanggalRE ("Tanggal Transaksi:&nbsp;".toList ++ v) = some [] := by
  apply capOf_headq_some true tanggalRE _ v []
  rw [show ("Tanggal Transaksi:&nbsp;".toList ++ v) =
    "Tanggal".toList ++ (' ' :: 'T' :: ("ransaksi".toList ++ (':' :: (nbspPat ++ v)))) from rfl]
  rw [show tanggalRE = RE.seqP (.lit "Tanggal".toList)
    (.seqP wsS (.seqP (.lit "Transaksi".toList) bodyTail)) from rfl]
  rw [runRE_seq_lit]
  rw [runRE_seq_ws_one true _ 'T' _ (by decide)]
  rw [show "Transaksi".toList = 'T' :: "ransaksi".toList from rfl]
  rw [runRE_seq_lit_ne true 'T' _ _ ' ' _ (by decide)]
  rw [List.append_nil]
  rw [show ('T' :: ("ransaksi".toList ++ (':' :: (nbspPat ++ v)))) =
    ('T' :: "ransaksi".toList) ++ (':' :: (nbspPat ++ v)) from rfl]
  rw [runRE_seq_lit]
  exact bodyTail_head v

theorem capOf_kartu_nbsp (d1 d2 d3 d4 : Char)
    (h1 : d1.isDigit = true) (h2 : d2.isDigit = true)
    (h3 : d3.isDigit = true) (h4 : d4.isDigit = true)
    (hw : isWs d1 = false) :
    capOf true kartuRE ("4 digit Akhir Kartu:&nbsp;".toList ++ [d1, d2, d3, d4]) =
      some [d1, d2, d3, d4] := by
  apply capOf_headq_some true kartuRE _ [] [d1, d2, d3, d4]
  have hIN : "4 digit Akhir Kartu:&nbsp;".toList ++ [d1, d2, d3, d4] =
      '4' :: ' ' :: 'd' :: 'i' :: 'g' :: 'i' :: 't' :: ' ' :: 'A' :: 'k' :: 'h' :: 'i' ::
      'r' :: ' ' :: 'K' :: 'a' :: 'r' :: 't' :: 'u' :: ':' :: '&' :: 'n' :: 'b' :: 's' ::
      'p' :: ';' :: [d1, d2, d3, d4] := rfl
  have hL1 : "digit".toList = ['d', 'i', 'g', 'i', 't'] := rfl
  have hL2 : "Akhir".toList = ['A', 'k', 'h', 'i', 'r'] := rfl
  have hL3 : "Kartu".toList = ['K', 'a', 'r', 't', 'u'] := rfl
  have ws1 : isWs ' ' = true := by decide
  have ws2 : isWs 'd' = false := by decide
  have ws3 : isWs 'A' = false := by decide
  have ws4 : isWs 'K' = false := by decide
  have ws5 : isWs ':' = false := by decide
  have ws6 : isWs '&' = false := by decide
  have ne1 : charEq true 'd' ' ' = false := by decide
  have ne2 : charEq true 'A' ' ' = false := by decide
  have ne3 : charEq true 'K' ' ' = false := by decide
  have ne4 : Char.isDigit '&' = false := by decide
  have hr1 : List.range 1 = [0] := rfl
  have hr2 : List.range 2 = [0, 1] := rfl
  rw [hIN]
  simp [kartuRE, runRE, litMatch, charEq_self, greedySplits, List.takeWhile_cons,
    exactN, nbspPat, wsS, capJoin, hL1, hL2, hL3, ws1, ws2, ws3, ws4, ws5, ws6, hw,
    ne1, ne2, ne3, ne4, h1, h2, h3, h4, hr1, hr2]

theorem normalizeBr_cons_ne (c : Char) (l : List Char) (hc : ¬(c = '<')) :
    normalizeBr (c :: l) = c :: normalizeBr l := by
  show normalizeBrF (l.length + 1) (c :: l) = _
  simp only [normalizeBrF, if_neg hc]
  rfl

theorem runRE_fromRE_x (m : List Char) : runRE true fromRE ('x' :: m) = [] := by
  have hD : charEq true 'D' 'x' = false := by decide
  have hF : charEq true 'F' 'x' = false := by decide
  have l1 : "Dari".toList = ['D', 'a', 'r', 'i'] := rfl
  have l2 : "From".toList = ['F', 'r', 'o', 'm'] := rfl
  simp [fromRE, runRE, litMatch, l1, l2, hD, hF]

theorem runRE_dateRE_x (m : List Char) : runRE true dateRE ('x' :: m) = [] := by
  have hD : charEq true 'D' 'x' = false := by decide
  have hT : charEq true 'T' 'x' = false := by decide
  have hS : charEq true 'S' 'x' = false := by decide
  have l1 : "Date".toList = ['D', 'a', 't', 'e'] := rfl
  have l2 : "Tanggal".toList = ['T', 'a', 'n', 'g', 'g', 'a', 'l'] := rfl
  have l3 : "Sent".toList = ['S', 'e', 'n', 't'] := rfl
  simp [dateRE, runRE, litMatch, l1, l2, l3, hD, hT, hS]

theorem runRE_subjectRE_x (m : List Char) : runRE true subjectRE ('x' :: m) = [] := by
  have hS : charEq true 'S' 'x' = false := by decide
  have l1 : "Subject".toList = ['S', 'u', 'b', 'j', 'e', 'c', 't'] := rfl
  simp [subjectRE, runRE, litMatch, l1, hS]

theorem parseForwardedMail_cons_x (s : String) :
    parseForwardedMail ⟨'x' :: s.toList⟩ = parseForwardedMail s := by
  simp only [parseForwardedMail]
  have ht : (⟨'x' :: s.toList⟩ : String).toList = 'x' :: s.toList := rfl
  rw [ht, normalizeBr_cons_ne 'x' s.toList (by decide)]
  rw [capOf_skip true fromRE 'x' _ (runRE_fromRE_x _),
      capOf_skip true dateRE 'x' _ (runRE_dateRE_x _),
      capOf_skip true subjectRE 'x' _ (runRE_subjectRE_x _)]

theorem mkString_ne_empty (c : Char) (l : List Char) : (⟨c :: l⟩ : String) ≠ "" := by
  intro h
  have h2 := congrArg String.data h
  have h3 : ("" : String).data = [] := rfl
  rw [h3] at h2
  simp at h2

theorem parseTx_merchant_na (s : String) (hs : s ≠ "")
    (h : capOf true merchantRE s.toList = some []) :
    (parseTransactionDetails s).merchant = "N/A" := by
  unfold parseTransactionDetails
  rw [if_neg hs]
  show (⟨fieldOr "N/A".toList (capOf true merchantRE s.toList)⟩ : String) = "N/A"
  rw [h]
  rfl

theorem parseTx_tanggal_na (s : String) (hs : s ≠ "")
    (h : capOf true tanggalRE s.toList = some []) :
    (parseTransactionDetails s).tanggalTransaksi = "N/A" := by
  unfold parseTransactionDetails
  rw [if_neg hs]
  show (⟨fieldOr "N/A".toList (capOf true tanggalRE s.toList)⟩ : String) = "N/A"
  rw [h]
  rfl

theorem parseTx_nominal_na (s : String) (hs : s ≠ "")
    (h : capOf true nominalRE s.toList = some []) :
    (parseTransactionDetails s).nominal = "N/A" := by
  unfold parseTransactionDetails
  rw [if_neg hs]
  show (⟨fieldOr "N/A".toList (capOf true nominalRE s.toList)⟩ : String) = "N/A"
  rw [h]
  rfl

theorem parseTx_kartu_val (s : String) (hs : s ≠ "") (d : Char) (ds : List Char)
    (h : capOf true kartuRE s.toList = some (d :: ds)) (hc : cleanL (d :: ds) = d :: ds) :
    (parseTransactionDetails s).akhirKartu = ⟨d :: ds⟩ := by
  unfold parseTransactionDetails
  rw [if_neg hs]
  show (⟨fieldOr "N/A".toList (capOf true kartuRE s.toList)⟩ : String) = ⟨d :: ds⟩
  rw [h]
  show (⟨cleanL (d :: ds)⟩ : String) = ⟨d :: ds⟩
  rw [hc]


/-! ## Claim theorems -/

/-- C8: `clean` is idempotent: `clean(clean(s)) == clean(s)` for every
string `s`. -/
theorem C8_clean_idempotent : ∀ s : String, clean (clean s) = clean s := by
  intro s
  show (⟨cleanL (clean s).toList⟩ : String) = ⟨cleanL s.toList⟩
  have h : (clean s).toList = cleanL s.toList := rfl
  rw [h, cleanL_idem]

/-- C9: `escapeMarkdown` prepends exactly one backslash to each
occurrence of `_`, `*`, backtick, `[` and passes every other character
through unchanged, removing and reordering nothing (each input character
maps in place to itself or to backslash-itself); the empty string is
returned unchanged. -/
theorem C9_escape_markdown :
    (∀ s : String, (escapeMarkdown s).toList =
      (s.toList.map (fun c => if isMdSpecial c then ['\\', c] else [c])).join) ∧
    escapeMarkdown "" = "" := by
  constructor
  · intro s
    by_cases hs : s = ""
    · subst hs
      rfl
    · unfold escapeMarkdown
      rw [if_neg hs]
      show escMd s.toList = _
      exact escMd_join s.toList
  · rfl

/-- C7: `clean` strips every `<`…`>`-delimited span, decodes `&nbsp;` to
a space, and trims — in that order — and decodes no other entity: on
input without `<` and without `&nbsp;` it only trims, and `&lt;`, `&gt;`,
`&amp;` pass through untouched. -/
theorem C7_clean_semantics :
    (∀ s : String, clean s = ⟨jsTrim (replNbsp (replTags [] s.toList))⟩) ∧
    (∀ s : String, s.toList.all (fun c => !(c = '<')) = true →
      noPat s.toList = true → clean s = ⟨jsTrim s.toList⟩) ∧
    clean "&lt;&gt;&amp;" = "&lt;&gt;&amp;" ∧
    clean "a &lt; b" = "a &lt; b" ∧
    clean "<i>x</i>&nbsp;y " = "x y" := by
  refine ⟨fun s => rfl, ?_, by decide, by decide, by decide⟩
  intro s h1 h2
  show (⟨cleanL s.toList⟩ : String) = ⟨jsTrim s.toList⟩
  unfold cleanL
  rw [replTags_id_of_noLt _ h1, replNbsp_of_noPat _ h2]

/-- C7 witness: on `"&lt;x"` (no `<` character, no `&nbsp;`) `clean`
only trims, leaving the `&lt;` entity intact. -/
theorem C7_witness : clean "&lt;x" = "&lt;x" := by
  have h := C7_clean_semantics.2.1 "&lt;x" (by decide) (by decide)
  rw [h]
  decide

/-- C10: the `"N/A"` default of a transaction field is suppressed by the
raw captured substring being non-empty, before cleaning; a merchant value
consisting only of a markup tag (raw capture `"<b>"`, non-empty) is
cleaned to the empty string — neither `"N/A"` nor non-empty text. -/
theorem C10_default_suppression_on_raw :
    (∀ (s : String) (r : List Char), s ≠ "" →
      capOf true merchantRE s.toList = some r → r ≠ [] →
      (parseTransactionDetails s).merchant = ⟨cleanL r⟩) ∧
    capOf true merchantRE "Merchant/ATM: <b><br>".toList = some ['<', 'b', '>'] ∧
    (parseTransactionDetails "Merchant/ATM: <b><br>").merchant = "" ∧
    ("" : String) ≠ "N/A" := by
  refine ⟨?_, by decide, by decide, by decide⟩
  intro s r hs hcap hr
  unfold parseTransactionDetails
  rw [if_neg hs]
  show (⟨fieldOr "N/A".toList (capOf true merchantRE s.toList)⟩ : String) = ⟨cleanL r⟩
  rw [hcap]
  cases r with
  | nil => exact absurd rfl hr
  | cons a t => rfl

/-- C10 witness: the general suppression rule applied at the concrete
input `"Merchant/ATM: <b><br>"` with raw capture `"<b>"`. -/
theorem C10_witness :
    (parseTransactionDetails "Merchant/ATM: <b><br>").merchant = ⟨cleanL ['<', 'b', '>']⟩ :=
  C10_default_suppression_on_raw.1 "Merchant/ATM: <b><br>" ['<', 'b', '>']
    (by decide) (by decide) (by decide)

/-- C1 counterexample: on input `"From:"` the sender pattern matches
with an empty captured remainder (group 1 = `""`), yet the `from` field
is left unset — presence follows the truthiness of the capture, not
pattern-match success. -/
theorem C1_counterexample :
    capOf true fromRE (normalizeBr "From:".toList) = some [] ∧
    (parseForwardedMail "From:").«from» = none :=
  ⟨by decide, by decide⟩

/-- C1 (amended): a forwarded-header field is unset exactly when its
pattern does not match or matches with an empty captured remainder;
presence requires pattern-match success together with a non-empty
capture. -/
theorem C1_presence_needs_nonempty_capture :
    ∀ s : String,
      ((parseForwardedMail s).«from» = none ↔
        (capOf true fromRE (normalizeBr s.toList) = none ∨
         capOf true fromRE (normalizeBr s.toList) = some [])) ∧
      ((parseForwardedMail s).date = none ↔
        (capOf true dateRE (normalizeBr s.toList) = none ∨
         capOf true dateRE (normalizeBr s.toList) = some [])) ∧
      ((parseForwardedMail s).subject = none ↔
        (capOf true subjectRE (normalizeBr s.toList) = none ∨
         capOf true subjectRE (normalizeBr s.toList) = some [])) := by
  intro s
  exact ⟨fwdField_map_none_iff _ _, fwdField_map_none_iff _ _, fwdField_map_none_iff _ _⟩

/-- C3 counterexample: in `"xFrom: bob"` no line begins with `Dari:` or
`From:` (the input is a single line starting with `x`), yet the sender
field is set to `"bob"` — the pattern is not anchored to line starts. -/
theorem C3_counterexample :
    (parseForwardedMail "xFrom: bob").«from» = some "bob" ∧
    "xFrom: bob".toList.all (fun c => !(c = '\n')) = true ∧
    pfx "From:".toList "xFrom: bob".toList = false ∧
    pfx "Dari:".toList "xFrom: bob".toList = false :=
  ⟨by decide, by decide, by decide, by decide⟩

/-- C3 (amended): matching is not anchored to line starts: prepending a
character that begins no label (here `x`) to any input leaves the whole
extraction result unchanged — under line-anchored semantics such a prefix
would disable a match at the start of the input — and a label occurring
mid-line produces a match; matching is case-insensitive, the capture runs
up to the next newline or end of input, and the first occurrence wins
(presence still requires a non-empty capture, per C1). -/
theorem C3_label_anywhere :
    (∀ s : String, parseForwardedMail ⟨'x' :: s.toList⟩ = parseForwardedMail s) ∧
    (parseForwardedMail "abc Dari: bob").«from» = some "bob" ∧
    (parseForwardedMail "From: alice\nFrom: bob").«from» = some "alice" ∧
    (parseForwardedMail "dari: x\nrest").«from» = some "x" :=
  ⟨parseForwardedMail_cons_x, by decide, by decide, by decide⟩

/-- C2 counterexample: on the spec's exact example string (which ends
right after `"Rp 50.000"`) the `Nominal` capture finds no terminator
(`<br`, `</p>`, `&nbsp;` or newline), so `nominal` stays `"N/A"` instead
of the claimed `"Rp 50.000"`. -/
theorem C2_counterexample :
    (parseTransactionDetails "4 digit Akhir Kartu: 1234<br>Merchant/ATM: Starbucks<br>Tanggal Transaksi: 01/01/2024<br>Nominal: Rp 50.000").nominal = "N/A" ∧
    ("N/A" : String) ≠ "Rp 50.000" :=
  ⟨by decide, by decide⟩

/-- C2 (amended): the spec's example yields `{akhirKartu:"1234",
merchant:"Starbucks", tanggalTransaksi:"01/01/2024", nominal:"N/A"}`
because the amount capture requires a terminator absent at end of input;
appending `"<br>"` yields the originally claimed `"Rp 50.000"`. -/
theorem C2_example_amended :
    parseTransactionDetails "4 digit Akhir Kartu: 1234<br>Merchant/ATM: Starbucks<br>Tanggal Transaksi: 01/01/2024<br>Nominal: Rp 50.000" =
      ⟨"1234", "Starbucks", "01/01/2024", "N/A"⟩ ∧
    parseTransactionDetails "4 digit Akhir Kartu: 1234<br>Merchant/ATM: Starbucks<br>Tanggal Transaksi: 01/01/2024<br>Nominal: Rp 50.000<br>" =
      ⟨"1234", "Starbucks", "01/01/2024", "Rp 50.000"⟩ :=
  ⟨by decide, by decide⟩

/-- C4 counterexample: for the input `"Merchant/ATM:&nbsp;Starbucks<br>"`
(the claimed form with VALUE = `"Starbucks"`), the merchant field is the
default `"N/A"`, not the cleaned VALUE: the merchant pattern treats
`&nbsp;` as a capture terminator, not as a tolerated token after the
colon. -/
theorem C4_counterexample :
    (parseTransactionDetails "Merchant/ATM:&nbsp;Starbucks<br>").merchant = "N/A" ∧
    clean "Starbucks" = "Starbucks" ∧
    ("N/A" : String) ≠ "Starbucks" :=
  ⟨by decide, by decide, by decide⟩

/-- C4 (amended): only the card-suffix pattern tolerates an optional
`&nbsp;` immediately after the colon — for every 4-digit value it still
captures the digits — while for merchant, transaction date and amount,
`&nbsp;` is a capture terminator: for every VALUE, an input of the form
`"LABEL:&nbsp;VALUE<br>"` produces an empty raw capture and the `"N/A"`
default survives. -/
theorem C4_nbsp_only_for_card_suffix :
    (∀ d1 d2 d3 d4 : Char, d1 ∈ digitChars → d2 ∈ digitChars → d3 ∈ digitChars →
      d4 ∈ digitChars →
      (parseTransactionDetails
        ⟨"4 digit Akhir Kartu:&nbsp;".toList ++ [d1, d2, d3, d4]⟩).akhirKartu =
        ⟨[d1, d2, d3, d4]⟩) ∧
    (∀ v : String,
      (parseTransactionDetails
        ⟨"Merchant/ATM:&nbsp;".toList ++ (v.toList ++ "<br>".toList)⟩).merchant = "N/A") ∧
    (∀ v : String,
      (parseTransactionDetails
        ⟨"Tanggal Transaksi:&nbsp;".toList ++ (v.toList ++ "<br>".toList)⟩).tanggalTransaksi =
        "N/A") ∧
    (∀ v : String,
      (parseTransactionDetails
        ⟨"Nominal:&nbsp;".toList ++ (v.toList ++ "<br>".toList)⟩).nominal = "N/A") ∧
    capOf true merchantRE "Merchant/ATM:&nbsp;Starbucks<br>".toList = some [] := by
  refine ⟨?_, ?_, ?_, ?_, by decide⟩
  · intro d1 d2 d3 d4 m1 m2 m3 m4
    obtain ⟨i1, w1, l1, a1⟩ := digitChars_facts d1 m1
    obtain ⟨i2, w2, l2, a2⟩ := digitChars_facts d2 m2
    obtain ⟨i3, w3, l3, a3⟩ := digitChars_facts d3 m3
    obtain ⟨i4, w4, l4, a4⟩ := digitChars_facts d4 m4
    apply parseTx_kartu_val _ (mkString_ne_empty _ _) d1 [d2, d3, d4]
    · exact capOf_kartu_nbsp d1 d2 d3 d4 i1 i2 i3 i4 w1
    · apply cleanL_of_plain
      · simp [l1, l2, l3, l4]
      · intro c hc
        rcases (by simpa using hc : c = d1 ∨ c = d2 ∨ c = d3 ∨ c = d4) with
          rfl | rfl | rfl | rfl <;> assumption
      · intro c hc
        rcases (by simpa using hc : c = d1 ∨ c = d2 ∨ c = d3 ∨ c = d4) with
          rfl | rfl | rfl | rfl <;> assumption
  · intro v
    exact parseTx_merchant_na _ (mkString_ne_empty _ _)
      (capOf_merchant_nbsp (v.toList ++ "<br>".toList))
  · intro v
    exact parseTx_tanggal_na _ (mkString_ne_empty _ _)
      (capOf_tanggal_nbsp (v.toList ++ "<br>".toList))
  · intro v
    exact parseTx_nominal_na _ (mkString_ne_empty _ _)
      (capOf_nominal_nbsp (v.toList ++ "<br>".toList))

/-- C4 witness: the card-suffix tolerance rule applied at the digits
`5678` and the merchant terminator rule applied at VALUE = `"Starbucks"`. -/
theorem C4_witness :
    (parseTransactionDetails
      ⟨"4 digit Akhir Kartu:&nbsp;".toList ++ ['5', '6', '7', '8']⟩).akhirKartu =
      ⟨['5', '6', '7', '8']⟩ ∧
    (parseTransactionDetails
      ⟨"Merchant/ATM:&nbsp;".toList ++ ("Starbucks".toList ++ "<br>".toList)⟩).merchant =
      "N/A" :=
  ⟨C4_nbsp_only_for_card_suffix.1 '5' '6' '7' '8'
      (by decide) (by decide) (by decide) (by decide),
   C4_nbsp_only_for_card_suffix.2.1 "Starbucks"⟩

/-- C5: a field whose pattern finds no match keeps its default — `"N/A"`
for the four transaction fields, unset for the three forwarded-header
fields — and the empty string yields the all-default / all-unset records
(the extractors are total functions; no error path exists). -/
theorem C5_defaults_on_no_match :
    (∀ s : String,
      (capOf true kartuRE s.toList = none →
        (parseTransactionDetails s).akhirKartu = "N/A") ∧
      (capOf true merchantRE s.toList = none →
        (parseTransactionDetails s).merchant = "N/A") ∧
      (capOf true tanggalRE s.toList = none →
        (parseTransactionDetails s).tanggalTransaksi = "N/A") ∧
      (capOf true nominalRE s.toList = none →
        (parseTransactionDetails s).nominal = "N/A") ∧
      (capOf true fromRE (normalizeBr s.toList) = none →
        (parseForwardedMail s).«from» = none) ∧
      (capOf true dateRE (normalizeBr s.toList) = none →
        (parseForwardedMail s).date = none) ∧
      (capOf true subjectRE (normalizeBr s.toList) = none →
        (parseForwardedMail s).subject = none)) ∧
    parseTransactionDetails "" = ⟨"N/A", "N/A", "N/A", "N/A"⟩ ∧
    parseForwardedMail "" = ⟨none, none, none⟩ := by
  refine ⟨fun s => ⟨?_, ?_, ?_, ?_, ?_, ?_, ?_⟩, by decide, by decide⟩
  · intro h
    by_cases hs : s = ""
    · subst hs; decide
    · unfold parseTransactionDetails
      rw [if_neg hs]
      show (⟨fieldOr "N/A".toList (capOf true kartuRE s.toList)⟩ : String) = "N/A"
      rw [h]
      rfl
  · intro h
    by_cases hs : s = ""
    · subst hs; decide
    · unfold parseTransactionDetails
      rw [if_neg hs]
      show (⟨fieldOr "N/A".toList (capOf true merchantRE s.toList)⟩ : String) = "N/A"
      rw [h]
      rfl
  · intro h
    by_cases hs : s = ""
    · subst hs; decide
    · unfold parseTransactionDetails
      rw [if_neg hs]
      show (⟨fieldOr "N/A".toList (capOf true tanggalRE s.toList)⟩ : String) = "N/A"
      rw [h]
      rfl
  · intro h
    by_cases hs : s = ""
    · subst hs; decide
    · unfold parseTransactionDetails
      rw [if_neg hs]
      show (⟨fieldOr "N/A".toList (capOf true nominalRE s.toList)⟩ : String) = "N/A"
      rw [h]
      rfl
  · intro h
    show (fwdField (capOf true fromRE (normalizeBr s.toList)) emailOrClean).map String.mk = none
    rw [h]
    rfl
  · intro h
    show (fwdField (capOf true dateRE (normalizeBr s.toList)) dsClean).map String.mk = none
    rw [h]
    rfl
  · intro h
    show (fwdField (capOf true subjectRE (normalizeBr s.toList)) dsClean).map String.mk = none
    rw [h]
    rfl

/-- C5 witness: on the input `"x"` no pattern matches and every field is
at its default / unset. -/
theorem C5_witness :
    (parseTransactionDetails "x").akhirKartu = "N/A" ∧
    (parseTransactionDetails "x").merchant = "N/A" ∧
    (parseTransactionDetails "x").tanggalTransaksi = "N/A" ∧
    (parseTransactionDetails "x").nominal = "N/A" ∧
    (parseForwardedMail "x").«from» = none ∧
    (parseForwardedMail "x").date = none ∧
    (parseForwardedMail "x").subject = none := by
  have hx := C5_defaults_on_no_match.1 "x"
  exact ⟨hx.1 (by decide), hx.2.1 (by decide), hx.2.2.1 (by decide),
    hx.2.2.2.1 (by decide), hx.2.2.2.2.1 (by decide), hx.2.2.2.2.2.1 (by decide),
    hx.2.2.2.2.2.2 (by decide)⟩

/-- C6: when the (non-empty) raw sender capture contains an
e-mail-shaped substring, the leftmost such substring alone becomes
`from`; on the spec's example the result is
`{from:"jane@example.com", date:"Mon, 1 Jan 2024", subject:"Hello"}`. -/
theorem C6_email_preference :
    (∀ (s : String) (r e : List Char),
      capOf true fromRE (normalizeBr s.toList) = some r → r ≠ [] →
      capOf false emailRE r = some e →
      (parseForwardedMail s).«from» = some ⟨e⟩) ∧
    parseForwardedMail "From: Jane Doe <jane@example.com>\nDate: Mon, 1 Jan 2024\nSubject: Hello" =
      ⟨some "jane@example.com", some "Hello", some "Mon, 1 Jan 2024"⟩ := by
  refine ⟨?_, by decide⟩
  intro s r e hcap hr hem
  show (fwdField (capOf true fromRE (normalizeBr s.toList)) emailOrClean).map String.mk = some ⟨e⟩
  rw [hcap]
  cases r with
  | nil => exact absurd rfl hr
  | cons a t =>
    have hf : fwdField (some (a :: t)) emailOrClean = some (emailOrClean (a :: t)) := rfl
    rw [hf]
    have he : emailOrClean (a :: t) = e := by
      unfold emailOrClean
      rw [hem]
    rw [he]
    rfl

/-- C6 witness: the general rule applied at the spec's example input,
with raw capture `"Jane Doe <jane@example.com>"` and e-mail match
`"jane@example.com"`. -/
theorem C6_witness :
    (parseForwardedMail "From: Jane Doe <jane@example.com>\nDate: Mon, 1 Jan 2024\nSubject: Hello").«from» =
      some ⟨"jane@example.com".toList⟩ :=
  C6_email_preference.1
    "From: Jane Doe <jane@example.com>\nDate: Mon, 1 Jan 2024\nSubject: Hello"
    "Jane Doe <jane@example.com>".toList "jane@example.com".toList
    (by decide) (by decide) (by decide)
